import Mathlib

/-!
Shallow embedding of the utility package's functional core
(`src/utils/numbers/numbers.ts` and `src/utils/strings/strings.ts`).

Modelling conventions:
* JS numbers are modelled as `Int` for the parity predicates and summation
  (the spec restricts the parity claims to integers and puts summation
  claims under exact arithmetic).
* The JS remainder operator `%` truncates toward zero, so `num % 2` is
  embedded as `Int.tmod num 2`.
* Strings are Lean `String`s; the elemental unit is `Char` (the spec leaves
  the text-unit granularity implementation-defined).
* `String.prototype.toUpperCase` on a single character is embedded as
  `Char.toUpper` (the simple ASCII case mapping).
* The regex `\s` character class is embedded as `jsWhitespace`, listing the
  ECMAScript WhiteSpace and LineTerminator code points.
-/

namespace numberUtils

/-- Embedding of `isEven: (num) => num % 2 === 0`. -/
def isEven (num : Int) : Bool := num.tmod 2 == 0

/-- Embedding of `isOdd: (num) => num % 2 !== 0`. -/
def isOdd (num : Int) : Bool := num.tmod 2 != 0

/-- Embedding of `sum: (nums) => nums.reduce((acc, val) => acc + val, 0)`.
`Array.prototype.reduce` with an initial accumulator is a left fold. -/
def sum (nums : List Int) : Int := nums.foldl (fun acc val => acc + val) 0

end numberUtils

namespace stringUtils

/-- ECMAScript `\s`: WhiteSpace (tab, vertical tab, form feed, space, NBSP,
ZWNBSP, Unicode space separators) plus LineTerminator (LF, CR, LS, PS). -/
def jsWhitespace (c : Char) : Bool :=
  c == '\t' || c == '\n' || c == '\u000B' || c == '\u000C' || c == '\r' ||
  c == ' ' || c == '\u00A0' || c == '\u1680' ||
  ('\u2000' ≤ c && c ≤ '\u200A') ||
  c == '\u2028' || c == '\u2029' || c == '\u202F' || c == '\u205F' ||
  c == '\u3000' || c == '\uFEFF'

/-- Negation of `jsWhitespace`, the class matched by word content. -/
def notWs (c : Char) : Bool := !jsWhitespace c

/-- Embedding of `capitalize: (str) => str.charAt(0).toUpperCase() + str.slice(1)`:
`charAt(0)` is the (at most one-element) first chunk, `toUpperCase` maps the
simple upper-case mapping over it, and `slice(1)` is the rest. -/
def capitalize (str : String) : String :=
  ⟨(str.data.take 1).map Char.toUpper ++ str.data.drop 1⟩

/-- Embedding of `reverse: (str) => str.split("").reverse().join("")`:
splitting into characters, reversing, and rejoining is `List.reverse`
on the character list. -/
def reverse (str : String) : String :=
  ⟨str.data.reverse⟩

/-- Embedding of `str.split(/\s+/)`: the separator matches are the maximal
runs of whitespace, and the pieces between consecutive matches (including
an empty piece before a match at the start and after a match at the end)
are returned in order. On the empty string the regex never matches, so the
result is the singleton list holding the empty string. -/
def splitWs (l : List Char) : List (List Char) :=
  match h : l.dropWhile notWs with
  | [] => [l.takeWhile notWs]
  | _ :: rest => l.takeWhile notWs :: splitWs (rest.dropWhile jsWhitespace)
termination_by l.length
decreasing_by
  have h1 : (l.dropWhile notWs).length ≤ l.length :=
    (List.dropWhile_sublist notWs).length_le
  have h2 : (rest.dropWhile jsWhitespace).length ≤ rest.length :=
    (List.dropWhile_sublist jsWhitespace).length_le
  simp only [h, List.length_cons] at h1
  omega

/-- Embedding of `countWords: (str) => str.split(/\s+/).filter(Boolean).length`:
`filter(Boolean)` keeps exactly the non-empty pieces. -/
def countWords (str : String) : Nat :=
  ((splitWs str.data).filter (fun t => !t.isEmpty)).length

/-- Helper for the specification-side word count: counts the non-whitespace
characters that begin a maximal non-whitespace run, i.e. those preceded by
the start of the string or by a whitespace character. The flag records
whether the current position is such a boundary. -/
def countRunsAux (atBoundary : Bool) : List Char → Nat
  | [] => 0
  | c :: cs =>
    if jsWhitespace c then countRunsAux true cs
    else (if atBoundary then 1 else 0) + countRunsAux false cs

/-- Specification-side count, following the spec's words for `countWords`:
the number of maximal runs of non-whitespace characters in the string. -/
def countRunsSpec (l : List Char) : Nat := countRunsAux true l

end stringUtils

namespace stringUtils

theorem toUpper_toUpper (c : Char) : c.toUpper.toUpper = c.toUpper := by
  unfold Char.toUpper
  by_cases h : c.toNat ≥ 97 ∧ c.toNat ≤ 122
  · rw [if_pos h]
    have hv : (c.toNat - 32).isValidChar := Or.inl (by omega)
    have ht : (Char.ofNat (c.toNat - 32)).toNat = c.toNat - 32 := by
      rw [Char.ofNat, dif_pos hv]; rfl
    rw [if_neg (by omega :
      ¬((Char.ofNat (c.toNat - 32)).toNat ≥ 97 ∧ (Char.ofNat (c.toNat - 32)).toNat ≤ 122))]
  · rw [if_neg h, if_neg h]

theorem countRunsAux_dropWhile_ws (l : List Char) :
    countRunsAux true (l.dropWhile jsWhitespace) = countRunsAux true l := by
  induction l with
  | nil => rfl
  | cons c cs ih =>
    by_cases h : jsWhitespace c
    · rw [List.dropWhile_cons_of_pos h, ih]
      simp [countRunsAux, h]
    · rw [List.dropWhile_cons_of_neg h]

theorem countRunsAux_append (tok m : List Char) (b : Bool)
    (htok : ∀ c ∈ tok, notWs c = true) :
    countRunsAux b (tok ++ m) =
      if tok = [] then countRunsAux b m
      else (if b then 1 else 0) + countRunsAux false m := by
  induction tok generalizing b with
  | nil => simp
  | cons c tok ih =>
    have hc : jsWhitespace c = false := by
      have := htok c (List.mem_cons_self c tok)
      simpa [notWs] using this
    have ih2 := ih false (fun x hx => htok x (List.mem_cons_of_mem c hx))
    simp only [List.cons_append, countRunsAux, hc, Bool.false_eq_true, if_false, ih2]
    rw [if_neg (by simp : ¬(c :: tok = []))]
    by_cases htok0 : tok = [] <;> simp [htok0, ih2]

theorem splitWs_filter_length (l : List Char) :
    ((splitWs l).filter (fun t => !t.isEmpty)).length = countRunsSpec l := by
  unfold countRunsSpec
  unfold splitWs
  split
  · rename_i h
    have hall : ∀ c ∈ l, notWs c = true := List.dropWhile_eq_nil_iff.mp h
    have htake : l.takeWhile notWs = l := List.takeWhile_eq_self_iff.mpr hall
    rw [htake]
    have happ := countRunsAux_append l [] true hall
    simp only [List.append_nil] at happ
    rw [happ]
    cases l <;> simp [countRunsAux]
  · rename_i d rest h
    have hd : jsWhitespace d = true := by
      have hw := List.head?_dropWhile_not notWs l
      rw [h] at hw
      simp only [List.head?_cons] at hw
      simpa [notWs] using hw
    have htok : ∀ c ∈ l.takeWhile notWs, notWs c = true :=
      fun c hc => List.mem_takeWhile_imp hc
    have hl := List.takeWhile_append_dropWhile (p := notWs) (l := l)
    rw [h] at hl
    have hrec := splitWs_filter_length (rest.dropWhile jsWhitespace)
    unfold countRunsSpec at hrec
    conv_rhs => rw [← hl]
    rw [countRunsAux_append _ _ _ htok]
    simp only [countRunsAux, hd, if_true]
    rw [← countRunsAux_dropWhile_ws rest, ← hrec]
    rcases hx : l.takeWhile notWs with _ | ⟨x, xs⟩ <;> simp [List.filter_cons] <;> omega
termination_by l.length
decreasing_by
  rename_i a d rest h1 h2 heq
  have hle := (List.dropWhile_sublist (l := l) notWs).length_le
  rw [heq, List.length_cons] at hle
  have hle2 := (List.dropWhile_sublist (l := rest) jsWhitespace).length_le
  omega

theorem countWords_eq_countRunsSpec (s : String) :
    countWords s = countRunsSpec s.data := by
  unfold countWords
  exact splitWs_filter_length s.data

theorem countRunsAux_eq_zero_iff (l : List Char) :
    countRunsAux true l = 0 ↔ l.all jsWhitespace = true := by
  induction l with
  | nil => simp [countRunsAux]
  | cons c cs ih =>
    by_cases h : jsWhitespace c
    · simp [countRunsAux, h, ih]
    · simp [countRunsAux, h]

end stringUtils

namespace numberUtils

theorem foldl_add_shift (l : List Int) (a : Int) :
    l.foldl (fun acc val => acc + val) a = a + l.foldl (fun acc val => acc + val) 0 := by
  induction l generalizing a with
  | nil => simp
  | cons c cs ih =>
    simp only [List.foldl_cons]
    rw [ih (a + c), ih (0 + c)]
    ring

end numberUtils

/-- C1: for every integer n, isOdd(n) returns the exact logical negation of
isEven(n), including for negative integers. -/
theorem isOdd_eq_not_isEven (n : Int) :
    numberUtils.isOdd n = !numberUtils.isEven n := rfl

/-- C2: isEven(n) is true iff n is exactly divisible by 2 and isOdd(n) is
true iff n is not divisible by 2, negative integers included, despite the
implementation using the truncating remainder operator. -/
theorem isEven_isOdd_divisibility : ∀ n : Int,
    (numberUtils.isEven n = true ↔ 2 ∣ n) ∧
    (numberUtils.isOdd n = true ↔ ¬(2 ∣ n)) ∧
    (numberUtils.isEven n = true ↔ n % 2 = 0) ∧
    (numberUtils.isOdd n = true ↔ n % 2 ≠ 0) ∧
    numberUtils.isEven (-4) = true ∧ numberUtils.isOdd (-3) = true := by
  intro n
  have hdvd : numberUtils.isEven n = true ↔ 2 ∣ n := by
    simp only [numberUtils.isEven, beq_iff_eq]
    exact Int.dvd_iff_tmod_eq_zero.symm
  have hodd : numberUtils.isOdd n = true ↔ ¬(2 ∣ n) := by
    simp only [numberUtils.isOdd, bne_iff_ne, ne_eq]
    exact not_congr Int.dvd_iff_tmod_eq_zero.symm
  refine ⟨hdvd, hodd, ?_, ?_, by decide, by decide⟩
  · rw [hdvd, Int.dvd_iff_emod_eq_zero]
  · rw [hodd, Int.dvd_iff_emod_eq_zero]

/-- C3: sum is the left fold of addition starting from the identity 0, with
additions performed in sequence order; the sum of the empty sequence is 0,
and sum [1,2,3,4] is 10. -/
theorem sum_is_left_fold :
    (∀ l : List Int, numberUtils.sum l = l.foldl (· + ·) 0) ∧
    numberUtils.sum [] = 0 ∧ numberUtils.sum [1, 2, 3, 4] = 10 :=
  ⟨fun _ => rfl, rfl, by decide⟩

/-- C8: under exact arithmetic, sum is invariant under reversing the
input sequence. -/
theorem sum_reverse_eq (l : List Int) :
    numberUtils.sum l.reverse = numberUtils.sum l := by
  induction l with
  | nil => rfl
  | cons c cs ih =>
    have h1 := numberUtils.foldl_add_shift cs (0 + c)
    simp only [numberUtils.sum, List.reverse_cons, List.foldl_append,
      List.foldl_cons, List.foldl_nil] at ih ⊢
    omega

/-- C5: capitalize maps the empty string to the empty string and otherwise
upper-cases exactly the first character, leaving every later character
unchanged; capitalize "hello" is "Hello". -/
theorem capitalize_first_char :
    stringUtils.capitalize "" = "" ∧
    stringUtils.capitalize "hello" = "Hello" ∧
    ∀ (c : Char) (cs : List Char),
      stringUtils.capitalize ⟨c :: cs⟩ = ⟨c.toUpper :: cs⟩ :=
  ⟨rfl, rfl, fun _ _ => rfl⟩

/-- C6: reverse is an involution, returns the same characters in reverse
order, and maps "" to "" and "hello" to "olleh". -/
theorem reverse_involution :
    (∀ s : String, stringUtils.reverse (stringUtils.reverse s) = s) ∧
    (∀ s : String, (stringUtils.reverse s).data = s.data.reverse) ∧
    stringUtils.reverse "" = "" ∧ stringUtils.reverse "hello" = "olleh" := by
  refine ⟨fun s => ?_, fun s => rfl, rfl, rfl⟩
  show (⟨s.data.reverse.reverse⟩ : String) = s
  rw [List.reverse_reverse]

/-- C7: capitalize is idempotent. -/
theorem capitalize_idempotent (s : String) :
    stringUtils.capitalize (stringUtils.capitalize s) = stringUtils.capitalize s := by
  obtain ⟨l⟩ := s
  cases l with
  | nil => rfl
  | cons c cs =>
    show (⟨c.toUpper.toUpper :: cs⟩ : String) = ⟨c.toUpper :: cs⟩
    rw [stringUtils.toUpper_toUpper]

/-- C4: countWords equals the number of maximal runs of non-whitespace
characters (splitting on maximal whitespace runs and discarding the empty
tokens produced at the edges), with the concrete values required by the
spec. -/
theorem countWords_counts_runs :
    (∀ s : String, stringUtils.countWords s = stringUtils.countRunsSpec s.data) ∧
    stringUtils.countWords "" = 0 ∧
    stringUtils.countWords "hello world" = 2 ∧
    stringUtils.countWords "hello   world   test" = 3 := by
  refine ⟨stringUtils.countWords_eq_countRunsSpec, ?_, ?_, ?_⟩ <;>
    rw [stringUtils.countWords_eq_countRunsSpec] <;> decide

/-- C10: countWords is zero exactly when the string has no non-whitespace
character; in particular a string of blanks counts zero words. -/
theorem countWords_eq_zero_iff :
    (∀ s : String,
      stringUtils.countWords s = 0 ↔ s.data.all stringUtils.jsWhitespace = true) ∧
    stringUtils.countWords "   " = 0 := by
  constructor
  · intro s
    rw [stringUtils.countWords_eq_countRunsSpec, stringUtils.countRunsSpec]
    exact stringUtils.countRunsAux_eq_zero_iff s.data
  · rw [stringUtils.countWords_eq_countRunsSpec]
    decide

/-- C9: all six operations are total on their domains, and the empty-input
boundary cases return the documented defaults: 0 for sum, the empty string
for capitalize and reverse, and 0 for countWords. -/
theorem operations_total :
    (∀ n : Int, ∃ b : Bool, numberUtils.isEven n = b) ∧
    (∀ n : Int, ∃ b : Bool, numberUtils.isOdd n = b) ∧
    (∀ l : List Int, ∃ k : Int, numberUtils.sum l = k) ∧
    (∀ s : String, ∃ t : String, stringUtils.capitalize s = t) ∧
    (∀ s : String, ∃ t : String, stringUtils.reverse s = t) ∧
    (∀ s : String, ∃ m : Nat, stringUtils.countWords s = m) ∧
    numberUtils.sum [] = 0 ∧
    stringUtils.capitalize "" = "" ∧
    stringUtils.reverse "" = "" ∧
    stringUtils.countWords "" = 0 := by
  refine ⟨fun n => ⟨_, rfl⟩, fun n => ⟨_, rfl⟩, fun l => ⟨_, rfl⟩,
    fun s => ⟨_, rfl⟩, fun s => ⟨_, rfl⟩, fun s => ⟨_, rfl⟩, rfl, rfl, rfl, ?_⟩
  rw [stringUtils.countWords_eq_countRunsSpec]
  decide
